import Mathlib

set_option maxHeartbeats 1000000

/-
Shallow embedding of the anycable-elements cursors widget:
the address codec (indexedSelector / pathSelector / pathLocator),
the Cursor presence entries, and the AnyCableCursorsElement lifecycle
(message handling, staleness sweeping, connect/disconnect).

Conventions of the embedding:
* DOM elements are modelled as pure trees; non-element nodes (text,
  comments, the document node, the window) are omitted because the
  source skips every node without a localName and counts only
  element siblings (nodeType === 1).
* An element carries one tag string; in the browser localName and
  tagName differ only by case and the source always compares them
  case-insensitively (toLowerCase on both sides), which the model
  mirrors with an ASCII lowercasing function (HTML tag names are
  ASCII).
* The address string is kept in parsed form: a list of parts (the
  result of splitting on the boundary marker) where each part is a
  list of segments (the result of splitting on the child combinator).
  For tag names free of the delimiter substrings the string join and
  split are mutually inverse, so nothing is lost.
* Fallible DOM calls are modelled with Except Unit: .error () stands
  for a thrown exception (e.g. calling querySelector on null).
-/

/-- A DOM element: tag name, light-DOM child elements, whether a shadow
root is attached, and the shadow root child elements (meaningful only
when a shadow root is attached; a detached shadow list is kept empty). -/
inductive Elem : Type where
  | mk : String → List Elem → Bool → List Elem → Elem

def Elem.tag : Elem → String
  | .mk t _ _ _ => t

def Elem.children : Elem → List Elem
  | .mk _ c _ _ => c

def Elem.hasShadow : Elem → Bool
  | .mk _ _ b _ => b

def Elem.shadowChildren : Elem → List Elem
  | .mk _ _ _ s => s

/-- One emitted selector segment: a tag name, and `some i` when the
source emits `tag:nth-of-type(i)`, `none` when it emits the bare tag. -/
structure Segment where
  tag : String
  idx : Option Nat
deriving DecidableEq, Repr

/-- A part of the address: the segments between two boundary-crossing
markers, joined by the child combinator in the string form. -/
abbrev AddrPart := List Segment

/-- ASCII lowercasing of one character (model of toLowerCase on the
characters that occur in tag names). -/
def lowChar (c : Char) : Char :=
  if 65 ≤ c.toNat ∧ c.toNat ≤ 90 then Char.ofNat (c.toNat + 32) else c

/-- ASCII lowercasing of a string. -/
def lowerStr (s : String) : String :=
  ⟨s.data.map lowChar⟩

/-- Number of elements of `sibs` whose tag equals `tag` case-insensitively
(the loop body condition `tagName.toLowerCase() == node.tagName.toLowerCase()`). -/
def countSameTag (tag : String) (sibs : List Elem) : Nat :=
  (sibs.filter (fun e => lowerStr e.tag == lowerStr tag)).length

/-- Model of `indexedSelector(node)` from the source: walk the preceding
element siblings; if none shares the tag, emit the bare tag name,
otherwise emit the tag with the 1-based ordinal `i` (which the walk
leaves at 1 + number of preceding same-tag element siblings). -/
def indexedSelector (prevSibs : List Elem) (e : Elem) : Segment :=
  if countSameTag e.tag prevSibs == 0 then ⟨e.tag, none⟩
  else ⟨e.tag, some (countSameTag e.tag prevSibs + 1)⟩

/-- An element together with its preceding element siblings, which is
exactly the context `indexedSelector` and `:nth-of-type` matching read. -/
abbrev Info := List Elem × Elem

/-- The segment `indexedSelector` emits for a chain element in context. -/
def segOf (i : Info) : Segment :=
  indexedSelector i.1 i.2

/-- One step of the `pathSelector` accumulation loop from the source:
`acc` is the selector built so far for the inner elements (none models
the initial undefined), `i` the current context element.  A normal join
prepends the segment to the innermost part with the child combinator;
when the context owns a shadow root the source switches the delimiter to
the boundary marker, which in parsed form opens a new part.  When the
accumulator is still undefined the shadow branch concatenates the JS
string "undefined", which parses as a bare tag selector "undefined". -/
def encStep (acc : Option (List AddrPart)) (i : Info) : Option (List AddrPart) :=
  let seg := segOf i
  if i.2.hasShadow then
    match acc with
    | none => some [[seg], [⟨"undefined", none⟩]]
    | some parts => some ([seg] :: parts)
  else
    match acc with
    | none => some [[seg]]
    | some [] => some [[seg]]
    | some (p :: ps) => some ((seg :: p) :: ps)

/-- Model of `pathSelector(path)` from the source: fold over the composed
path from innermost to outermost element (entries without a localName,
i.e. shadow roots / document / window, never appear in the model) and
return the accumulated parsed address, `none` for JS undefined. -/
def pathSelector (chain : List Info) : Option (List AddrPart) :=
  chain.foldl encStep none

/-- Does an element (with its preceding-sibling context) match one simple
selector segment?  Bare tags match on the tag alone; `tag:nth-of-type(i)`
additionally requires the 1-based position among same-tag element
siblings to be `i`.  Tag comparison is case-insensitive as in CSS. -/
def segMatches (i : Info) (s : Segment) : Bool :=
  lowerStr i.2.tag == lowerStr s.tag &&
    match s.idx with
    | none => true
    | some k => countSameTag i.2.tag i.1 + 1 == k

/-- Does a child-combinator selector chain match at an element?  `crev`
is the chain reversed (innermost segment first); `anc` are the element
ancestors bottom-up, each with its sibling context, as far up as the
search root.  Every combinator is the child combinator, so consecutive
segments must match consecutive ancestors; the outermost segment may be
matched at any depth (descendant semantics of querySelector). -/
def chainMatchesRev : List Info → Info → List Segment → Bool
  | _, _, [] => false
  | anc, i, s :: rest =>
    segMatches i s &&
      match rest with
      | [] => true
      | _ :: _ =>
        match anc with
        | [] => false
        | a :: anc2 => chainMatchesRev anc2 a rest

/-- An entry of the pre-order enumeration: the ancestors (bottom-up, with
sibling contexts) and the element itself with its sibling context. -/
abbrev Entry := List Info × Info

/-- Pre-order (document order) enumeration of all elements of a forest,
each with its ancestor stack and preceding-sibling context.  Shadow
sub-roots are not entered: querySelector does not pierce shadow
boundaries.  Light children of shadow hosts are entered: they are in
the same tree. -/
def enumSibs (anc : List Info) (prev : List Elem) : List Elem → List Entry
  | [] => []
  | .mk t c b s :: rest =>
    (anc, (prev, Elem.mk t c b s)) ::
      (enumSibs ((prev, Elem.mk t c b s) :: anc) [] c ++
        enumSibs anc (prev ++ [Elem.mk t c b s]) rest)

/-- Model of the DOM call `root.querySelector(part)` for selector chains
of the shape `pathSelector` emits: the first element in document order
of the root forest whose ancestor chain matches the child-combinator
chain. -/
def querySelector (roots : List Elem) (chain : List Segment) : Option Elem :=
  ((enumSibs [] [] roots).find? (fun en => chainMatchesRev en.1 en.2 chain.reverse)).map
    (fun en => en.2.2)

/-- The loop of `pathLocator`: `root` is the current search root (`none`
models a null shadowRoot), `el` the last query result (`none` models
JS undefined/null).  Calling querySelector on a null root throws, which
the model records as `.error ()`. -/
def locLoop : Option (List Elem) → List AddrPart → Option Elem → Except Unit (Option Elem)
  | _, [], el => .ok el
  | none, _ :: _, _ => .error ()
  | some roots, part :: rest, _ =>
    match querySelector roots part with
    | none => .ok none
    | some el =>
      locLoop (if el.hasShadow then some el.shadowChildren else none) rest (some el)

/-- Model of `pathLocator(path)` from the source: split the address into
parts at the boundary markers (already split in the parsed form), then
resolve each part against the current root, descending into the shadow
root of each resolved element.  Returns the last query result; `.ok
none` is the "not found" outcome, `.error ()` a thrown exception. -/
def pathLocator (doc : List Elem) (parts : List AddrPart) : Except Unit (Option Elem) :=
  locLoop (some doc) parts none

/-- The purely sequential resolution the spec describes for decode
("resolve each part, descend into the resolved element's sub-root, stop
at the first failure").  Modelled from the spec for the refinement
comparison in the decode-totality claim; unlike `pathLocator` it never
reaches a querySelector on a null root, because it only descends when a
shadow root is present. -/
def specResolve (roots : List Elem) : List AddrPart → Option Elem
  | [] => none
  | part :: rest =>
    match querySelector roots part with
    | none => none
    | some el =>
      match rest with
      | [] => some el
      | _ :: _ => if el.hasShadow then specResolve el.shadowChildren rest else none

/-- The chain of (preceding siblings, element) contexts along one part of
a structural path: the indices select a child at each level, descending
through light children only.  Returns the contexts top-down. -/
def partInfos (roots : List Elem) : List Nat → Option (List Info)
  | [] => none
  | i :: rest =>
    match roots[i]? with
    | none => none
    | some e =>
      match rest with
      | [] => some [(roots.take i, e)]
      | _ :: _ => (partInfos e.children rest).map (fun l => (roots.take i, e) :: l)

/-- A default context used only to spell `getLastD`; every use is guarded
by a nonemptiness fact. -/
def dInfo : Info := ([], Elem.mk "" [] false [])

/-- The contexts of a full structural path: one part per search root,
where each part after the first lives in the shadow root of the element
its predecessor ends at (the composed path crosses the boundary there,
so that element must host a shadow root). -/
def pathInfos (doc : List Elem) : List (List Nat) → Option (List (List Info))
  | [] => none
  | q :: qs =>
    match partInfos doc q with
    | none => none
    | some infos =>
      match qs with
      | [] => some [infos]
      | _ :: _ =>
        let host := (infos.getLastD dInfo).2
        if host.hasShadow then
          (pathInfos host.shadowChildren qs).map (fun l => infos :: l)
        else none

/-- A rendered composed path never descends through the light children of
a shadow host (without slots such children are not rendered): inside
each part every element but the last hosts no shadow root, and in the
final part the target itself hosts none either. -/
def goodParts : List (List Info) → Bool
  | [] => false
  | [infos] => infos.all (fun i => !i.2.hasShadow)
  | infos :: rest => infos.dropLast.all (fun i => !i.2.hasShadow) && goodParts rest

/-- The selector segments a part of the address consists of, top-down. -/
def partSegs (infos : List Info) : AddrPart :=
  infos.map segOf

/-- Uniqueness of the match of one part within its search root: the only
enumeration entry matching the emitted chain is the entry of the element
that produced it.  This is the hypothesis under which decoding a part is
exact; the counterexample shows it is not automatic, since querySelector
also matches identical descendant chains deeper in the root. -/
def UniqueWithin (roots : List Elem) (infos : List Info) : Prop :=
  ∀ en ∈ enumSibs [] [] roots,
    chainMatchesRev en.1 en.2 (partSegs infos).reverse = true →
      en = (infos.dropLast.reverse, infos.getLastD dInfo)

/-- Uniqueness of the match of every part of a path, each within the
search root decoding reaches it in. -/
def UniqueAll (doc : List Elem) : List (List Info) → Prop
  | [] => True
  | infos :: rest =>
    UniqueWithin doc infos ∧
      UniqueAll ((infos.getLastD dInfo).2.shadowChildren) rest

/-- The innermost element of a resolved structural path. -/
def pathTarget (partsInfos : List (List Info)) : Elem :=
  ((partsInfos.getLastD []).getLastD dInfo).2

/-- The composed-path chain (innermost context first) that the source
pathSelector consumes for a structural path: all contexts of all parts,
outermost-first concatenation reversed. -/
def pathChain (partsInfos : List (List Info)) : List Info :=
  partsInfos.flatten.reverse

/-- A presence entry (class Cursor from the source): the marker element's
current transform (none until first positioned; the clone starts with no
transform style) and the refresh deadline (none models the JS field
`deadline` before any assignment, so that `Date.now() - undefined` is
NaN and every comparison with the threshold is false). -/
structure Cursor where
  transform : Option (Int × Int)
  deadline : Option Nat
deriving DecidableEq, Repr

/-- Model of `Cursor.prototype.expired`: `Date.now() - this.deadline >
2000`.  With an unset deadline the JS subtraction is NaN and the
comparison false, which the `none` branch mirrors. -/
def Cursor.expired (now : Nat) (c : Cursor) : Bool :=
  match c.deadline with
  | none => false
  | some d => decide (now - d > 2000)

/-- Model of `Cursor.prototype.keepalive(location)`: resolve the path; a
not-found result returns with the cursor untouched; a successful
resolution positions the marker with one transform write (bounding rect
plus scroll offset plus the message offsets, the geometry abstracted by
`rect` and `scroll`) and sets the deadline to now.  A throwing
resolution propagates. -/
def Cursor.keepalive (doc : List Elem) (rect : Elem → Int × Int)
    (scroll : Int × Int) (now : Nat) (path : List AddrPart) (x y : Int)
    (c : Cursor) : Except Unit Cursor :=
  match pathLocator doc path with
  | .error () => .error ()
  | .ok none => .ok c
  | .ok (some el) =>
    .ok { transform := some (scroll.1 + (rect el).1 + x, scroll.2 + (rect el).2 + y),
          deadline := some now }

/-- State of the AnyCableCursorsElement that the claims are about:
the `connected` flag, whether the mousemove listener is attached, the
store of remote cursors keyed by participant id (an association list in
JS-object insertion order), and whether a reaper timeout is pending
(`_tid` set). -/
structure ElState where
  connected : Bool
  listener : Bool
  cursors : List (String × Cursor)
  tid : Bool
deriving DecidableEq, Repr

/-- Association-list lookup in JS-object style (first binding wins). -/
def storeGet : List (String × Cursor) → String → Option Cursor
  | [], _ => none
  | p :: t, id => if p.1 == id then some p.2 else storeGet t id

/-- Association-list update of an existing key in place. -/
def storeSet : List (String × Cursor) → String → Cursor → List (String × Cursor)
  | [], _, _ => []
  | p :: t, id, c => (if p.1 == id then (id, c) else p) :: storeSet t id c

/-- Model of `_invalidateCursors`: delete every expired entry (removing a
key during for..in is the same as filtering), then, whenever no timeout
is pending, schedule one — note this happens whether or not any entries
remain. -/
def invalidateCursors (now : Nat) (s : ElState) : ElState :=
  { s with
    cursors := s.cursors.filter (fun p => !Cursor.expired now p.2),
    tid := true }

/-- The reaper timeout firing: `delete this._tid` then `_invalidateCursors()`. -/
def fireTimer (now : Nat) (s : ElState) : Option ElState :=
  if s.tid then some (invalidateCursors now { s with tid := false }) else none

/-- An inbound message as `_handleMessage` reads it. -/
structure Msg where
  event : String
  id : String
  path : List AddrPart
  x : Int
  y : Int

/-- Model of `_handleMessage(msg)`: only "move" events are handled (the
`connected` flag is never consulted); a missing entry is created first
(fresh marker, no transform, no deadline), then `keepalive` runs on the
entry, then `_invalidateCursors`.  The Bool records whether the handler
threw (keepalive propagating a pathLocator exception), in which case the
sweep is not reached. -/
def handleMessage (doc : List Elem) (rect : Elem → Int × Int)
    (scroll : Int × Int) (now : Nat) (s : ElState) (m : Msg) : ElState × Bool :=
  if m.event == "move" then
    let s1 :=
      match storeGet s.cursors m.id with
      | some _ => s
      | none => { s with cursors := s.cursors ++ [(m.id, ⟨none, none⟩)] }
    let c := (storeGet s1.cursors m.id).getD ⟨none, none⟩
    match Cursor.keepalive doc rect scroll now m.path m.x m.y c with
    | .error () => (s1, true)
    | .ok c2 =>
      (invalidateCursors now { s1 with cursors := storeSet s1.cursors m.id c2 }, false)
  else (s, false)

/-- Model of the transport "disconnect" handler: `this.connected = false`
then `_stop()`.  `_stop` removes the mousemove listener and then calls
`this._cursor.die()`; the field `_cursor` is never assigned anywhere in
the source, so this dereference of undefined always throws — after the
listener was removed, and without ever touching the store.  The Bool
records the thrown TypeError. -/
def disconnectHandler (s : ElState) : ElState × Bool :=
  ({ s with connected := false, listener := false }, true)

/-- Model of the transport "connect" handler: `this.connected = true`
then `_start()` attaches the mousemove listener. -/
def connectHandler (s : ElState) : ElState :=
  { s with connected := true, listener := true }

/-- Trailing debounce as mini-throttle implements it for the wrapped
`_handleMove` (options start = false, middle = false): every call clears
the pending timeout and re-arms it for `wait` ms with the latest
arguments; the callback fires only when the timer survives to its
deadline.  `run` consumes the time-stamped calls in order (times
non-decreasing); a pending timer whose deadline is not later than the
next call has already fired.  Returns the emissions (time, payload). -/
def debounceRun (wait : Nat) : List (Nat × Nat) → Option (Nat × Nat) → List (Nat × Nat)
  | [], pending =>
    match pending with
    | none => []
    | some e => [e]
  | (t, a) :: rest, pending =>
    match pending with
    | none => debounceRun wait rest (some (t + wait, a))
    | some (ft, b) =>
      if ft ≤ t then (ft, b) :: debounceRun wait rest (some (t + wait, a))
      else debounceRun wait rest (some (t + wait, a))

/-- Every part of a resolved path except the last ends at a shadow host:
this is forced by `pathInfos`, which only crosses into a shadow root
that exists.  Recorded as a boolean so the encode correspondence can
consume it. -/
def hostChain : List (List Info) → Bool
  | [] => true
  | [_] => true
  | infos :: rest => (infos.getLastD dInfo).2.hasShadow && hostChain rest

/-- Counterexample tree: a widget shadow root holding a `section` that
contains a `div > span` chain, followed by a top-level `div > span`
chain.  Encoding the second span yields the part `div > span`, but
querySelector returns the first document-order match of that chain,
which is the span inside the section. -/
def cexB : Elem := .mk "b" [] false []

def cexSpanP : Elem := .mk "span" [] false []

def cexSpanQ : Elem := .mk "span" [cexB] false []

def cexDivX : Elem := .mk "div" [cexSpanP] false []

def cexSection : Elem := .mk "section" [cexDivX] false []

def cexDivY : Elem := .mk "div" [cexSpanQ] false []

def cexHost : Elem := .mk "my-widget" [] true [cexSection, cexDivY]

def cexBody : Elem := .mk "body" [cexHost] false []

def cexHtml : Elem := .mk "html" [cexBody] false []

def cexDoc : List Elem := [cexHtml]

def cexPath : List (List Nat) := [[0, 0, 0], [1, 0]]

def cexParts : List (List Info) :=
  [[([], cexHtml), ([], cexBody), ([], cexHost)],
   [([cexSection], cexDivY), ([], cexSpanQ)]]

def cexAddr : List AddrPart :=
  [[⟨"html", none⟩, ⟨"body", none⟩, ⟨"my-widget", none⟩],
   [⟨"div", none⟩, ⟨"span", none⟩]]

/-- Witness tree: one `div > span` chain inside the widget shadow root,
so every part of the emitted address matches uniquely. -/
def wSpan : Elem := .mk "span" [] false []

def wDiv : Elem := .mk "div" [wSpan] false []

def wHost : Elem := .mk "my-widget" [] true [wDiv]

def wBody : Elem := .mk "body" [wHost] false []

def wHtml : Elem := .mk "html" [wBody] false []

def wDoc : List Elem := [wHtml]

def wPath : List (List Nat) := [[0, 0, 0], [0, 0]]

def wParts : List (List Info) :=
  [[([], wHtml), ([], wBody), ([], wHost)],
   [([], wDiv), ([], wSpan)]]

def zeroRect : Elem → Int × Int := fun _ => (0, 0)

def c2State : ElState := ⟨true, true, [], false⟩

def c2wState : ElState := ⟨true, true, [("z", ⟨none, some 4⟩)], false⟩

def c3State : ElState := ⟨true, true, [("a", ⟨none, some 0⟩)], false⟩

def c5State : ElState := ⟨true, true, [("a", ⟨some (1, 2), some 10⟩)], true⟩

def c6State : ElState := ⟨false, false, [], false⟩

def c4State : ElState := ⟨true, true, [("a", ⟨none, some 0⟩)], false⟩

def c7El : Elem := .mk "a" [] false []

def c7Doc : List Elem := [c7El]

/-- Spec-side comparator for the segment rule: whether the element is the
only element of its tag among all its immediate element siblings,
preceding and following, compared case-insensitively.  Written from the
spec's words for the refinement comparison; the source's
`indexedSelector` inspects only the preceding siblings. -/
def onlyOfTag (prevSibs followSibs : List Elem) (e : Elem) : Bool :=
  countSameTag e.tag prevSibs == 0 && countSameTag e.tag followSibs == 0

theorem enumSibs_cons (anc : List Info) (prev : List Elem) (e : Elem)
    (rest : List Elem) :
    enumSibs anc prev (e :: rest) =
      (anc, (prev, e)) ::
        (enumSibs ((prev, e) :: anc) [] e.children ++
          enumSibs anc (prev ++ [e]) rest) := by
  cases e
  simp [enumSibs, Elem.children]

theorem find?_of_unique {α : Type} (p : α → Bool) (l : List α) (x : α)
    (hx : x ∈ l) (hpx : p x = true)
    (huniq : ∀ y ∈ l, p y = true → y = x) :
    l.find? p = some x := by
  induction l with
  | nil => cases hx
  | cons a t ih =>
    by_cases hpa : p a = true
    · have hax : a = x := huniq a (List.mem_cons_self a t) hpa
      subst hax
      simp [List.find?_cons_of_pos, hpa]
    · rw [List.find?_cons_of_neg _ hpa]
      have hxt : x ∈ t := by
        rcases List.mem_cons.mp hx with h | h
        · subst h; exact absurd hpx hpa
        · exact h
      exact ih hxt (fun y hy hpy => huniq y (List.mem_cons_of_mem a hy) hpy)

theorem segMatches_self (p : List Elem) (e : Elem) :
    segMatches (p, e) (indexedSelector p e) = true := by
  unfold segMatches indexedSelector
  by_cases h : countSameTag e.tag p == 0
  · simp [h]
  · simp [h]

theorem chainMatchesRev_self (R : List Info) (i : Info) :
    chainMatchesRev R i (segOf i :: R.map segOf) = true := by
  induction R generalizing i with
  | nil =>
    simp [chainMatchesRev]
    exact segMatches_self i.1 i.2
  | cons a R2 ih =>
    simp [chainMatchesRev]
    constructor
    · exact segMatches_self i.1 i.2
    · exact ih a

theorem mem_enumSibs_top (roots : List Elem) (p0 : List Elem) (anc : List Info)
    (k : Nat) (e : Elem) (h : roots[k]? = some e) :
    (anc, (p0 ++ roots.take k, e)) ∈ enumSibs anc p0 roots := by
  induction roots generalizing p0 k with
  | nil => simp at h
  | cons r rest ih =>
    cases k with
    | zero =>
      simp only [List.getElem?_cons_zero, Option.some.injEq] at h
      subst h
      rw [enumSibs_cons]
      simp
    | succ k =>
      simp only [List.getElem?_cons_succ] at h
      rw [enumSibs_cons]
      have hmem := ih (p0 ++ [r]) k h
      rw [List.take_succ_cons, List.append_cons p0 r (rest.take k)]
      exact List.mem_cons_of_mem _ (List.mem_append_right _ hmem)

theorem enumSibs_sub (roots : List Elem) (p0 : List Elem) (anc : List Info)
    (k : Nat) (e : Elem) (h : roots[k]? = some e) :
    ∀ x ∈ enumSibs ((p0 ++ roots.take k, e) :: anc) [] e.children,
      x ∈ enumSibs anc p0 roots := by
  induction roots generalizing p0 k with
  | nil => simp at h
  | cons r rest ih =>
    cases k with
    | zero =>
      simp only [List.getElem?_cons_zero, Option.some.injEq] at h
      subst h
      intro x hx
      rw [enumSibs_cons]
      simp only [List.take_zero, List.append_nil] at hx
      exact List.mem_cons_of_mem _ (List.mem_append_left _ hx)
    | succ k =>
      simp only [List.getElem?_cons_succ] at h
      intro x hx
      rw [enumSibs_cons]
      rw [List.take_succ_cons, List.append_cons p0 r (rest.take k)] at hx
      exact List.mem_cons_of_mem _ (List.mem_append_right _ (ih (p0 ++ [r]) k h x hx))

theorem partInfos_ne_nil (q : List Nat) (roots : List Elem) (infos : List Info)
    (h : partInfos roots q = some infos) : infos ≠ [] := by
  cases q with
  | nil => simp [partInfos] at h
  | cons i rest =>
    simp only [partInfos] at h
    cases hr : roots[i]? with
    | none => rw [hr] at h; cases h
    | some e =>
      rw [hr] at h
      cases rest with
      | nil =>
        simp at h
        subst h
        simp
      | cons r rs =>
        simp only at h
        cases hp : partInfos e.children (r :: rs) with
        | none => rw [hp] at h; cases h
        | some l => rw [hp] at h; simp at h; subst h; simp

theorem getLastD_cons_of_ne_nil {α : Type} (a d : α) (l : List α) (h : l ≠ []) :
    (a :: l).getLastD d = l.getLastD d := by
  cases l with
  | nil => exact absurd rfl h
  | cons b t => simp [List.getLastD_cons]

theorem reverse_eq_getLastD_cons {α : Type} (l : List α) (d : α) (h : l ≠ []) :
    l.reverse = l.getLastD d :: l.dropLast.reverse := by
  rcases List.eq_nil_or_concat l with rfl | ⟨l2, b, rfl⟩
  · exact absurd rfl h
  · simp

theorem partInfos_mem (q : List Nat) (roots : List Elem) (anc : List Info)
    (infos : List Info) (h : partInfos roots q = some infos) :
    (infos.dropLast.reverse ++ anc, infos.getLastD dInfo) ∈ enumSibs anc [] roots := by
  induction q generalizing roots anc infos with
  | nil => simp [partInfos] at h
  | cons i rest ih =>
    simp only [partInfos] at h
    cases hr : roots[i]? with
    | none => rw [hr] at h; cases h
    | some e =>
      rw [hr] at h
      cases rest with
      | nil =>
        simp at h
        subst h
        have := mem_enumSibs_top roots [] anc i e hr
        simpa using this
      | cons r rs =>
        simp only at h
        cases hp : partInfos e.children (r :: rs) with
        | none => rw [hp] at h; cases h
        | some infos2 =>
          rw [hp] at h
          simp at h
          subst h
          have hne2 : infos2 ≠ [] := partInfos_ne_nil _ _ _ hp
          have hmem := ih e.children ((roots.take i, e) :: anc) infos2 hp
          have hsub := enumSibs_sub roots [] anc i e hr
          simp only [List.nil_append] at hsub
          have hx := hsub _ hmem
      -- rewrite the entry shape
          have hdl : ((roots.take i, e) :: infos2).dropLast =
              (roots.take i, e) :: infos2.dropLast := by
            cases infos2 with
            | nil => exact absurd rfl hne2
            | cons b t => simp
          have hgl : ((roots.take i, e) :: infos2).getLastD dInfo =
              infos2.getLastD dInfo := getLastD_cons_of_ne_nil _ _ _ hne2
          rw [hdl, hgl]
          simpa [List.append_assoc] using hx

theorem chainMatchesRev_partSegs (infos : List Info) (h : infos ≠ []) :
    chainMatchesRev infos.dropLast.reverse (infos.getLastD dInfo)
      (partSegs infos).reverse = true := by
  have hrev : (partSegs infos).reverse = (infos.reverse).map segOf := by
    simp [partSegs, List.map_reverse]
  rw [hrev, reverse_eq_getLastD_cons infos dInfo h]
  simp only [List.map_cons]
  exact chainMatchesRev_self _ _

theorem querySelector_partInfos (roots : List Elem) (q : List Nat)
    (infos : List Info) (h : partInfos roots q = some infos)
    (hu : UniqueWithin roots infos) :
    querySelector roots (partSegs infos) = some (infos.getLastD dInfo).2 := by
  have hne := partInfos_ne_nil q roots infos h
  have hmem := partInfos_mem q roots [] infos h
  simp only [List.append_nil] at hmem
  have hmatch := chainMatchesRev_partSegs infos hne
  have hfind :=
    find?_of_unique
      (fun en : Entry => chainMatchesRev en.1 en.2 (partSegs infos).reverse)
      (enumSibs [] [] roots)
      (infos.dropLast.reverse, infos.getLastD dInfo)
      hmem hmatch
      (fun y hy hpy => hu y hy hpy)
  unfold querySelector
  rw [hfind]
  rfl

theorem pathInfos_ne_nil (pp : List (List Nat)) (doc : List Elem)
    (partsInfos : List (List Info)) (h : pathInfos doc pp = some partsInfos) :
    partsInfos ≠ [] := by
  cases pp with
  | nil => simp [pathInfos] at h
  | cons q qs =>
    simp only [pathInfos] at h
    cases hp : partInfos doc q with
    | none => rw [hp] at h; cases h
    | some infos =>
      rw [hp] at h
      cases qs with
      | nil => simp at h; subst h; simp
      | cons q2 qs2 =>
        simp only at h
        by_cases hs : ((infos.getLastD dInfo).2).hasShadow
        · rw [if_pos hs] at h
          cases hrec : pathInfos ((infos.getLastD dInfo).2).shadowChildren (q2 :: qs2) with
          | none => rw [hrec] at h; cases h
          | some l => rw [hrec] at h; simp at h; subst h; simp
        · rw [if_neg hs] at h; cases h

theorem locLoop_pathInfos (pp : List (List Nat)) (doc : List Elem)
    (partsInfos : List (List Info)) (acc : Option Elem)
    (h : pathInfos doc pp = some partsInfos) (hu : UniqueAll doc partsInfos) :
    locLoop (some doc) (partsInfos.map partSegs) acc =
      .ok (some (pathTarget partsInfos)) := by
  induction pp generalizing doc partsInfos acc with
  | nil => simp [pathInfos] at h
  | cons q qs ih =>
    simp only [pathInfos] at h
    cases hp : partInfos doc q with
    | none => rw [hp] at h; cases h
    | some infos =>
      rw [hp] at h
      cases qs with
      | nil =>
        simp at h
        subst h
        have huW : UniqueWithin doc infos := by
          simpa [UniqueAll] using hu
        have hq := querySelector_partInfos doc q infos hp huW
        simp only [List.map_cons, List.map_nil]
        unfold locLoop
        rw [hq]
        simp [locLoop, pathTarget]
      | cons q2 qs2 =>
        simp only at h
        by_cases hs : ((infos.getLastD dInfo).2).hasShadow
        · rw [if_pos hs] at h
          cases hrec : pathInfos ((infos.getLastD dInfo).2).shadowChildren (q2 :: qs2) with
          | none => rw [hrec] at h; cases h
          | some rest2 =>
            rw [hrec] at h
            simp at h
            subst h
            have hne2 : rest2 ≠ [] := pathInfos_ne_nil _ _ _ hrec
            have huW : UniqueWithin doc infos := hu.1
            have huRest : UniqueAll ((infos.getLastD dInfo).2.shadowChildren) rest2 :=
              hu.2
            have hq := querySelector_partInfos doc q infos hp huW
            simp only [List.map_cons]
            unfold locLoop
            rw [hq]
            simp only [hs, if_pos]
            have hrec2 := ih _ _ (some ((infos.getLastD dInfo).2)) hrec huRest
            rw [hrec2]
            have : pathTarget (infos :: rest2) = pathTarget rest2 := by
              unfold pathTarget
              rw [getLastD_cons_of_ne_nil _ _ _ hne2]
            rw [this]
        · rw [if_neg hs] at h; cases h

theorem pathInfos_parts_ne_nil (pp : List (List Nat)) (doc : List Elem)
    (partsInfos : List (List Info)) (h : pathInfos doc pp = some partsInfos) :
    ∀ infos ∈ partsInfos, infos ≠ [] := by
  induction pp generalizing doc partsInfos with
  | nil => simp [pathInfos] at h
  | cons q qs ih =>
    simp only [pathInfos] at h
    cases hp : partInfos doc q with
    | none => rw [hp] at h; cases h
    | some infos =>
      rw [hp] at h
      cases qs with
      | nil =>
        simp at h
        subst h
        intro l hl
        simp at hl
        subst hl
        exact partInfos_ne_nil _ _ _ hp
      | cons q2 qs2 =>
        simp only at h
        by_cases hs : ((infos.getLastD dInfo).2).hasShadow
        · rw [if_pos hs] at h
          cases hrec : pathInfos ((infos.getLastD dInfo).2).shadowChildren (q2 :: qs2) with
          | none => rw [hrec] at h; cases h
          | some rest2 =>
            rw [hrec] at h
            simp at h
            subst h
            intro l hl
            rcases List.mem_cons.mp hl with rfl | hl2
            · exact partInfos_ne_nil _ _ _ hp
            · exact ih _ _ hrec l hl2
        · rw [if_neg hs] at h; cases h

theorem pathInfos_hostChain (pp : List (List Nat)) (doc : List Elem)
    (partsInfos : List (List Info)) (h : pathInfos doc pp = some partsInfos) :
    hostChain partsInfos = true := by
  induction pp generalizing doc partsInfos with
  | nil => simp [pathInfos] at h
  | cons q qs ih =>
    simp only [pathInfos] at h
    cases hp : partInfos doc q with
    | none => rw [hp] at h; cases h
    | some infos =>
      rw [hp] at h
      cases qs with
      | nil => simp at h; subst h; simp [hostChain]
      | cons q2 qs2 =>
        simp only at h
        by_cases hs : ((infos.getLastD dInfo).2).hasShadow
        · rw [if_pos hs] at h
          cases hrec : pathInfos ((infos.getLastD dInfo).2).shadowChildren (q2 :: qs2) with
          | none => rw [hrec] at h; cases h
          | some rest2 =>
            rw [hrec] at h
            simp at h
            subst h
            have hne2 : rest2 ≠ [] := pathInfos_ne_nil _ _ _ hrec
            cases rest2 with
            | nil => exact absurd rfl hne2
            | cons b t =>
              simp only [hostChain, Bool.and_eq_true]
              exact ⟨hs, ih _ _ hrec⟩
        · rw [if_neg hs] at h; cases h

theorem dropLast_append_getLastD {α : Type} (l : List α) (d : α) (h : l ≠ []) :
    l.dropLast ++ [l.getLastD d] = l := by
  rcases List.eq_nil_or_concat l with rfl | ⟨l2, b, rfl⟩
  · exact absurd rfl h
  · simp

theorem foldr_encStep_nonhost (l : List Info)
    (h : ∀ i ∈ l, i.2.hasShadow = false) (p : AddrPart) (ps : List AddrPart) :
    l.foldr (fun i acc => encStep acc i) (some (p :: ps)) =
      some ((l.map segOf ++ p) :: ps) := by
  induction l with
  | nil => rfl
  | cons i t ih =>
    have hi : i.2.hasShadow = false := h i (List.mem_cons_self i t)
    have ht : ∀ j ∈ t, j.2.hasShadow = false :=
      fun j hj => h j (List.mem_cons_of_mem i hj)
    simp only [List.foldr_cons, ih ht]
    simp [encStep, hi]

theorem foldr_encStep_nonhost_nil (l : List Info) (hne : l ≠ [])
    (h : ∀ i ∈ l, i.2.hasShadow = false) :
    l.foldr (fun i acc => encStep acc i) none = some [l.map segOf] := by
  induction l with
  | nil => exact absurd rfl hne
  | cons i t ih =>
    have hi : i.2.hasShadow = false := h i (List.mem_cons_self i t)
    have ht : ∀ j ∈ t, j.2.hasShadow = false :=
      fun j hj => h j (List.mem_cons_of_mem i hj)
    cases t with
    | nil => simp [encStep, hi]
    | cons r rs =>
      have ht2 := ih (by simp) ht
      simp only [List.foldr_cons] at ht2 ⊢
      rw [ht2]
      simp [encStep, hi]

theorem pathSelector_pathChain (partsInfos : List (List Info))
    (hne : ∀ infos ∈ partsInfos, infos ≠ [])
    (hgood : goodParts partsInfos = true)
    (hhost : hostChain partsInfos = true) :
    pathSelector (pathChain partsInfos) = some (partsInfos.map partSegs) := by
  induction partsInfos with
  | nil => simp [goodParts] at hgood
  | cons infos rest ih =>
    cases rest with
    | nil =>
      have hn : infos ≠ [] := hne infos (List.mem_cons_self _ _)
      have hall : ∀ i ∈ infos, i.2.hasShadow = false := by
        intro i hi
        have := hgood
        simp only [goodParts, List.all_eq_true] at this
        have := this i hi
        simpa using this
      unfold pathChain pathSelector
      simp only [List.flatten_cons, List.flatten_nil, List.append_nil]
      rw [List.foldl_reverse]
      rw [foldr_encStep_nonhost_nil infos hn hall]
      simp [partSegs]
    | cons r t =>
      have hn : infos ≠ [] := hne infos (List.mem_cons_self _ _)
      have hgood2 : goodParts (r :: t) = true := by
        simp only [goodParts, Bool.and_eq_true] at hgood
        exact hgood.2
      have hhost1 : (infos.getLastD dInfo).2.hasShadow = true := by
        simp only [hostChain, Bool.and_eq_true] at hhost
        exact hhost.1
      have hhost2 : hostChain (r :: t) = true := by
        simp only [hostChain, Bool.and_eq_true] at hhost
        exact hhost.2
      have hdrop : ∀ i ∈ infos.dropLast, i.2.hasShadow = false := by
        intro i hi
        simp only [goodParts, Bool.and_eq_true, List.all_eq_true] at hgood
        have := hgood.1 i hi
        simpa using this
      have hne2 : ∀ l ∈ r :: t, l ≠ [] :=
        fun l hl => hne l (List.mem_cons_of_mem _ hl)
      have ihr := ih hne2 hgood2 hhost2
      unfold pathChain pathSelector at ihr ⊢
      simp only [List.flatten_cons, List.reverse_append] at ihr ⊢
      rw [List.foldl_append, ihr]
      rw [List.foldl_reverse]
      conv_lhs =>
        rw [show infos = infos.dropLast ++ [infos.getLastD dInfo] from
          (dropLast_append_getLastD infos dInfo hn).symm]
      rw [List.foldr_append]
      simp only [List.foldr_cons, List.foldr_nil]
      have hhost1b : (infos.getLast?.getD dInfo).2.hasShadow = true := by
        simpa [List.getLastD_eq_getLast?] using hhost1
      have hstep : encStep (some ((r :: t).map partSegs)) (infos.getLastD dInfo) =
          some ([segOf (infos.getLastD dInfo)] :: (r :: t).map partSegs) := by
        simp [encStep, hhost1, hhost1b]
      rw [hstep]
      rw [foldr_encStep_nonhost infos.dropLast hdrop _ _]
      have hmap : infos.dropLast.map segOf ++ [segOf (infos.getLastD dInfo)] =
          infos.map segOf := by
        conv_rhs =>
          rw [show infos = infos.dropLast ++ [infos.getLastD dInfo] from
            (dropLast_append_getLastD infos dInfo hn).symm]
        simp
      rw [hmap]
      simp [partSegs]

theorem enum_cexDoc :
    enumSibs [] [] cexDoc =
      [([], ([], cexHtml)),
       ([([], cexHtml)], ([], cexBody)),
       ([([], cexBody), ([], cexHtml)], ([], cexHost))] := by
  simp [cexDoc, cexHtml, cexBody, cexHost, enumSibs]

theorem enum_cexShadow :
    enumSibs [] [] [cexSection, cexDivY] =
      [([], ([], cexSection)),
       ([([], cexSection)], ([], cexDivX)),
       ([([], cexDivX), ([], cexSection)], ([], cexSpanP)),
       ([], ([cexSection], cexDivY)),
       ([([cexSection], cexDivY)], ([], cexSpanQ)),
       ([([], cexSpanQ), ([cexSection], cexDivY)], ([], cexB))] := by
  simp [cexSection, cexDivX, cexSpanP, cexDivY, cexSpanQ, cexB, enumSibs]

theorem enum_wDoc :
    enumSibs [] [] wDoc =
      [([], ([], wHtml)),
       ([([], wHtml)], ([], wBody)),
       ([([], wBody), ([], wHtml)], ([], wHost))] := by
  simp [wDoc, wHtml, wBody, wHost, enumSibs]

theorem enum_wShadow :
    enumSibs [] [] [wDiv] =
      [([], ([], wDiv)),
       ([([], wDiv)], ([], wSpan))] := by
  simp [wDiv, wSpan, enumSibs]

/-- C1 (amended): round-trip of the address codec.  For a structural
path through the tree (crossing shadow boundaries exactly at its shadow
hosts, never descending through light children of a host, and ending at
a non-host element), encoding the composed-path chain yields one address
part per crossed root, and decoding that address resolves to the same
innermost element — provided each part's emitted selector chain matches
only the element that produced it within its search root.  The
uniqueness hypothesis is necessary: querySelector returns the first
document-order match of an unanchored descendant chain, so an identical
chain deeper inside the root can shadow the intended one
(see the counterexample). -/
theorem C1_roundtrip_amended (doc : List Elem) (pp : List (List Nat))
    (partsInfos : List (List Info))
    (hres : pathInfos doc pp = some partsInfos)
    (hgood : goodParts partsInfos = true)
    (huniq : UniqueAll doc partsInfos) :
    pathSelector (pathChain partsInfos) = some (partsInfos.map partSegs) ∧
      pathLocator doc (partsInfos.map partSegs) =
        Except.ok (some (pathTarget partsInfos)) := by
  have hne := pathInfos_parts_ne_nil pp doc partsInfos hres
  have hhost := pathInfos_hostChain pp doc partsInfos hres
  constructor
  · exact pathSelector_pathChain partsInfos hne hgood hhost
  · unfold pathLocator
    exact locLoop_pathInfos pp doc partsInfos none hres huniq

theorem locLoop_cons_found (roots : List Elem) (part : AddrPart)
    (rest : List AddrPart) (acc : Option Elem) (el : Elem)
    (h : querySelector roots part = some el) :
    locLoop (some roots) (part :: rest) acc =
      locLoop (if el.hasShadow then some el.shadowChildren else none) rest (some el) := by
  simp only [locLoop, h]

theorem locLoop_cons_missed (roots : List Elem) (part : AddrPart)
    (rest : List AddrPart) (acc : Option Elem)
    (h : querySelector roots part = none) :
    locLoop (some roots) (part :: rest) acc = Except.ok none := by
  simp only [locLoop, h]

/-- C1 counterexample: the claim as stated (decode of encode resolves to
the element that produced the chain on an unchanged tree) is false.  In
the concrete tree the encoded address of the second top-level span of
the widget shadow root is html > body > my-widget::shadow div > span,
yet decoding it returns the span nested inside the section, because
querySelector matches the unanchored chain div > span at the first
document-order occurrence. -/
theorem C1_roundtrip_cex :
    pathInfos cexDoc cexPath = some cexParts ∧
    goodParts cexParts = true ∧
    pathSelector (pathChain cexParts) = some cexAddr ∧
    pathTarget cexParts = cexSpanQ ∧
    pathLocator cexDoc cexAddr = Except.ok (some cexSpanP) ∧
    cexSpanP ≠ cexSpanQ := by
  refine ⟨by rfl, by rfl, by rfl, by rfl, ?_, ?_⟩
  · have e1 : querySelector cexDoc
        [⟨"html", none⟩, ⟨"body", none⟩, ⟨"my-widget", none⟩] = some cexHost := by
      unfold querySelector
      rw [enum_cexDoc]
      rfl
    have e2 : querySelector [cexSection, cexDivY]
        [⟨"div", none⟩, ⟨"span", none⟩] = some cexSpanP := by
      unfold querySelector
      rw [enum_cexShadow]
      rfl
    show locLoop (some cexDoc) cexAddr none = Except.ok (some cexSpanP)
    rw [show cexAddr = [[⟨"html", none⟩, ⟨"body", none⟩, ⟨"my-widget", none⟩],
      [⟨"div", none⟩, ⟨"span", none⟩]] from rfl]
    rw [locLoop_cons_found _ _ _ _ _ e1]
    rw [show (if cexHost.hasShadow = true then some cexHost.shadowChildren else none) =
      some [cexSection, cexDivY] from rfl]
    rw [locLoop_cons_found _ _ _ _ _ e2]
    rfl
  · intro h
    simp [cexSpanP, cexSpanQ, cexB] at h

theorem C1_roundtrip_witness :
    pathSelector (pathChain wParts) = some (wParts.map partSegs) ∧
      pathLocator wDoc (wParts.map partSegs) =
        Except.ok (some (pathTarget wParts)) := by
  refine C1_roundtrip_amended wDoc wPath wParts (by rfl) (by rfl) ?_
  refine ⟨?_, ?_, trivial⟩
  · intro en hen hm
    rw [enum_wDoc] at hen
    fin_cases hen
    · exact absurd hm (by decide)
    · exact absurd hm (by decide)
    · rfl
  · have h2 : UniqueWithin [wDiv] [([], wDiv), ([], wSpan)] := by
      intro en hen hm
      rw [enum_wShadow] at hen
      fin_cases hen
      · exact absurd hm (by decide)
      · rfl
    exact h2

theorem storeGet_append_fresh (l : List (String × Cursor)) (id : String) (c : Cursor)
    (h : storeGet l id = none) : storeGet (l ++ [(id, c)]) id = some c := by
  induction l with
  | nil => simp [storeGet]
  | cons p t ih =>
    cases hp : p.1 == id with
    | true => simp [storeGet, hp] at h
    | false =>
      simp only [storeGet, hp] at h
      simp only [List.cons_append, storeGet, hp]
      simp only [Bool.false_eq_true, if_neg] at h ⊢
      exact ih h

theorem storeGet_set (l : List (String × Cursor)) (id : String) (c c2 : Cursor)
    (h : storeGet l id = some c) : storeGet (storeSet l id c2) id = some c2 := by
  induction l with
  | nil => simp [storeGet] at h
  | cons p t ih =>
    cases hp : p.1 == id with
    | true => simp [storeSet, storeGet, hp]
    | false =>
      simp only [storeGet, hp, Bool.false_eq_true, if_neg] at h
      simp [storeSet, storeGet, hp]
      exact ih h

theorem storeSet_of_get_none (l : List (String × Cursor)) (id : String) (c : Cursor)
    (h : storeGet l id = none) : storeSet l id c = l := by
  induction l with
  | nil => rfl
  | cons p t ih =>
    cases hp : p.1 == id with
    | true => simp [storeGet, hp] at h
    | false =>
      simp only [storeGet, hp, Bool.false_eq_true, if_neg] at h
      simp [storeSet, hp, ih h]

theorem storeGet_filter_of_true (l : List (String × Cursor)) (id : String)
    (c : Cursor) (f : Cursor → Bool) (h : storeGet l id = some c)
    (hf : f c = true) :
    storeGet (l.filter (fun p => f p.2)) id = some c := by
  induction l with
  | nil => simp [storeGet] at h
  | cons p t ih =>
    cases hp : p.1 == id with
    | true =>
      simp only [storeGet, hp, if_pos, Option.some.injEq] at h
      subst h
      simp only [List.filter_cons, hf, if_pos]
      simp [storeGet, hp]
    | false =>
      simp only [storeGet, hp, Bool.false_eq_true, if_neg] at h
      simp only [List.filter_cons]
      cases hfp : f p.2
      · simpa using ih h
      · simp only [if_pos]
        simp only [storeGet, hp, Bool.false_eq_true, if_neg]
        exact ih h

theorem storeGet_none_filter (l : List (String × Cursor)) (id : String)
    (f : String × Cursor → Bool) (h : storeGet l id = none) :
    storeGet (l.filter f) id = none := by
  induction l with
  | nil => simp [storeGet]
  | cons p t ih =>
    cases hp : p.1 == id with
    | true => simp [storeGet, hp] at h
    | false =>
      simp only [storeGet, hp, Bool.false_eq_true, if_neg] at h
      simp only [List.filter_cons]
      cases hfp : f p
      · simpa using ih h
      · simp only [if_pos]
        simp only [storeGet, hp, Bool.false_eq_true, if_neg]
        exact ih h

theorem storeGet_of_not_mem_keys (l : List (String × Cursor)) (id : String)
    (h : id ∉ l.map Prod.fst) : storeGet l id = none := by
  induction l with
  | nil => rfl
  | cons p t ih =>
    simp only [List.map_cons, List.mem_cons] at h
    push_neg at h
    have hp : (p.1 == id) = false := by
      cases hh : p.1 == id
      · rfl
      · exact absurd (eq_comm.mp (eq_of_beq hh)) h.1
    simp only [storeGet, hp, Bool.false_eq_true, if_neg]
    exact ih h.2

theorem storeGet_filter_remove (l : List (String × Cursor)) (id : String)
    (c : Cursor) (f : Cursor → Bool)
    (hkeys : (l.map Prod.fst).Nodup)
    (h : storeGet l id = some c) (hf : f c = false) :
    storeGet (l.filter (fun p => f p.2)) id = none := by
  induction l with
  | nil => simp [storeGet] at h
  | cons p t ih =>
    simp only [List.map_cons, List.nodup_cons] at hkeys
    cases hp : p.1 == id with
    | true =>
      simp only [storeGet, hp, if_pos, Option.some.injEq] at h
      subst h
      simp only [List.filter_cons, hf, Bool.false_eq_true, if_neg]
      have hid : p.1 = id := eq_of_beq hp
      have hidnot : id ∉ t.map Prod.fst := hid ▸ hkeys.1
      exact storeGet_none_filter t id _ (storeGet_of_not_mem_keys t id hidnot)
    | false =>
      simp only [storeGet, hp, Bool.false_eq_true, if_neg] at h
      simp only [List.filter_cons]
      cases hfp : f p.2
      · simpa using ih hkeys.2 h
      · simp only [if_pos]
        simp only [storeGet, hp, Bool.false_eq_true, if_neg]
        exact ih hkeys.2 h

theorem storeGet_filter_set (l : List (String × Cursor)) (f : String × Cursor → Bool)
    (id : String) (c c2 : Cursor)
    (h : storeGet ((storeSet l id c).filter f) id = some c2) : c2 = c := by
  induction l with
  | nil => simp [storeSet, storeGet] at h
  | cons p t ih =>
    cases hp : p.1 == id with
    | true =>
      simp only [storeSet, hp, if_pos, List.filter_cons] at h
      cases hfp : f (id, c)
      · rw [hfp] at h
        simp only [Bool.false_eq_true, if_neg] at h
        exact ih h
      · rw [hfp] at h
        simp only [if_pos] at h
        simp only [storeGet, (by simp : ((id, c).1 == id) = true), if_pos,
          Option.some.injEq] at h
        exact h.symm
    | false =>
      have hred : (if (p.1 == id) = true then (id, c) else p) = p := by
        simp [hp]
      simp only [storeSet, hred, List.filter_cons] at h
      cases hfp : f p
      · rw [hfp] at h
        simp only [Bool.false_eq_true, if_neg] at h
        exact ih h
      · rw [hfp] at h
        simp only [if_pos] at h
        simp only [storeGet, hp, Bool.false_eq_true, if_neg] at h
        exact ih h

theorem keepalive_notfound (doc : List Elem) (rect : Elem → Int × Int)
    (scroll : Int × Int) (now : Nat) (path : List AddrPart) (x y : Int)
    (c : Cursor) (h : pathLocator doc path = Except.ok none) :
    Cursor.keepalive doc rect scroll now path x y c = Except.ok c := by
  simp only [Cursor.keepalive, h]

theorem keepalive_error (doc : List Elem) (rect : Elem → Int × Int)
    (scroll : Int × Int) (now : Nat) (path : List AddrPart) (x y : Int)
    (c : Cursor) (h : pathLocator doc path = Except.error ()) :
    Cursor.keepalive doc rect scroll now path x y c = Except.error () := by
  simp only [Cursor.keepalive, h]

theorem keepalive_found (doc : List Elem) (rect : Elem → Int × Int)
    (scroll : Int × Int) (now : Nat) (path : List AddrPart) (x y : Int)
    (c : Cursor) (el : Elem) (h : pathLocator doc path = Except.ok (some el)) :
    Cursor.keepalive doc rect scroll now path x y c =
      Except.ok ⟨some (scroll.1 + (rect el).1 + x, scroll.2 + (rect el).2 + y),
        some now⟩ := by
  simp only [Cursor.keepalive, h]

theorem handleMessage_move (doc : List Elem) (rect : Elem → Int × Int)
    (scroll : Int × Int) (now : Nat) (s : ElState) (m : Msg)
    (h : m.event = "move") :
    handleMessage doc rect scroll now s m =
      (let s1 :=
        match storeGet s.cursors m.id with
        | some _ => s
        | none => { s with cursors := s.cursors ++ [(m.id, ⟨none, none⟩)] }
      match Cursor.keepalive doc rect scroll now m.path m.x m.y
          ((storeGet s1.cursors m.id).getD ⟨none, none⟩) with
      | .error () => (s1, true)
      | .ok c2 =>
        (invalidateCursors now { s1 with cursors := storeSet s1.cursors m.id c2 },
          false)) := by
  simp only [handleMessage, h]
  simp

theorem handleMessage_other (doc : List Elem) (rect : Elem → Int × Int)
    (scroll : Int × Int) (now : Nat) (s : ElState) (m : Msg)
    (h : (m.event == "move") = false) :
    handleMessage doc rect scroll now s m = (s, false) := by
  simp only [handleMessage, h]
  simp

theorem storeSet_append (l1 l2 : List (String × Cursor)) (id : String) (c : Cursor) :
    storeSet (l1 ++ l2) id c = storeSet l1 id c ++ storeSet l2 id c := by
  induction l1 with
  | nil => rfl
  | cons p t ih => simp [storeSet, ih]

/-- C2 (amended): a move message whose location fails to decode leaves an
existing entry's cursor record (transform and deadline) unchanged, but —
contrary to the claim — when no entry existed it does create a fresh
entry (default transform, unset deadline), so the entry count grows by
one (before the same handler's sweep removes any already-expired
entries; with no expired entry the count is exactly old count + 1). -/
theorem C2_unresolvable_amended (doc : List Elem) (rect : Elem → Int × Int)
    (scroll : Int × Int) (now : Nat) (s : ElState) (m : Msg)
    (hev : m.event = "move")
    (hfail : ∀ el, pathLocator doc m.path ≠ Except.ok (some el)) :
    (∀ c, storeGet s.cursors m.id = some c →
        ∀ c2, storeGet (handleMessage doc rect scroll now s m).1.cursors m.id =
            some c2 →
          c2 = c) ∧
    (storeGet s.cursors m.id = none →
        storeGet (handleMessage doc rect scroll now s m).1.cursors m.id =
          some ⟨none, none⟩ ∧
        ((∀ p ∈ s.cursors, Cursor.expired now p.2 = false) →
          (handleMessage doc rect scroll now s m).1.cursors.length =
            s.cursors.length + 1)) := by
  rw [handleMessage_move doc rect scroll now s m hev]
  cases hloc : pathLocator doc m.path with
  | error u =>
    cases u
    constructor
    · intro c hget c2 hget2
      simp only [hget] at hget2
      rw [keepalive_error _ _ _ _ _ _ _ _ hloc] at hget2
      simp only [hget] at hget2
      exact (Option.some_inj.mp hget2).symm
    · intro hget
      simp only [hget]
      rw [keepalive_error _ _ _ _ _ _ _ _ hloc]
      constructor
      · exact storeGet_append_fresh s.cursors m.id ⟨none, none⟩ hget
      · intro _
        simp
  | ok o =>
    cases o with
    | some el => exact absurd hloc (hfail el)
    | none =>
      constructor
      · intro c hget c2 hget2
        simp only [hget] at hget2
        rw [keepalive_notfound _ _ _ _ _ _ _ _ hloc] at hget2
        simp only [invalidateCursors] at hget2
        exact storeGet_filter_set s.cursors _ m.id _ c2 hget2
      · intro hget
        simp only [hget]
        rw [keepalive_notfound _ _ _ _ _ _ _ _ hloc]
        have hfresh : storeGet (s.cursors ++ [(m.id, ⟨none, none⟩)]) m.id =
            some ⟨none, none⟩ := storeGet_append_fresh s.cursors m.id _ hget
        simp only [hfresh, Option.getD_some]
        have hset : storeSet (s.cursors ++ [(m.id, ⟨none, none⟩)]) m.id
            ⟨none, none⟩ = s.cursors ++ [(m.id, ⟨none, none⟩)] := by
          rw [storeSet_append, storeSet_of_get_none s.cursors m.id _ hget]
          simp [storeSet]
        simp only [invalidateCursors, hset]
        constructor
        · exact storeGet_filter_of_true _ m.id _
            (fun c => !Cursor.expired now c) hfresh (by rfl)
        · intro hnoexp
          have hall : ∀ p ∈ s.cursors ++ [(m.id, (⟨none, none⟩ : Cursor))],
              (!Cursor.expired now p.2) = true := by
            intro p hp
            rcases List.mem_append.mp hp with h1 | h2
            · simp [hnoexp p h1]
            · simp at h2
              subst h2
              rfl
          rw [List.filter_eq_self.mpr hall]
          simp

/-- C2 counterexample: the claim that an undecodable location leaves the
entry count unchanged when no entry existed is false — `_handleMessage`
creates the entry before `keepalive` runs, so the count grows from 0 to
1 even though the location (here the empty address) decodes to
not-found. -/
theorem C2_unresolvable_cex :
    pathLocator [] ([] : List AddrPart) = Except.ok none ∧
    c2State.cursors.length = 0 ∧
    ((handleMessage [] zeroRect (0, 0) 5 c2State ⟨"move", "u", [], 3, 4⟩).1.cursors).length =
      1 := by
  refine ⟨rfl, rfl, ?_⟩
  rfl

theorem C2_unresolvable_witness :
    storeGet ((handleMessage [] zeroRect (0, 0) 5 c2wState
        ⟨"move", "u", [], 0, 0⟩).1.cursors) "u" = some ⟨none, none⟩ ∧
    ((handleMessage [] zeroRect (0, 0) 5 c2wState
        ⟨"move", "u", [], 0, 0⟩).1.cursors).length = c2wState.cursors.length + 1 := by
  have hfail : ∀ el, pathLocator [] (⟨"move", "u", [], 0, 0⟩ : Msg).path ≠
      Except.ok (some el) := by
    intro el h
    simp [pathLocator, locLoop] at h
  obtain ⟨h1, h2⟩ :=
    C2_unresolvable_amended [] zeroRect (0, 0) 5 c2wState ⟨"move", "u", [], 0, 0⟩
      rfl hfail
  have h3 := h2 (by rfl)
  exact ⟨h3.1, h3.2 (by decide)⟩

/-- C3 counterexample: the claim that no timer is pending after a sweep
that empties the store is false — `_invalidateCursors` schedules a
timeout unconditionally, so after sweeping the last (expired) entry a
timer is pending. -/
theorem C3_quiescence_cex :
    (invalidateCursors 5000 c3State).cursors = [] ∧
    (invalidateCursors 5000 c3State).tid = true := by
  constructor
  · rfl
  · rfl

/-- C3 (amended): the reaper never quiesces: after every sweep — whether
invoked from `_handleMessage` or from its own timeout, and whether or
not the store is empty afterwards — a timeout is pending (`_tid` set);
the guard only prevents a second simultaneous timer. -/
theorem C3_quiescence_amended (now : Nat) (s : ElState) :
    (invalidateCursors now s).tid = true ∧
    (∀ s2, fireTimer now s = some s2 → s2.tid = true) := by
  constructor
  · rfl
  · intro s2 h
    unfold fireTimer at h
    by_cases ht : s.tid = true
    · rw [if_pos ht] at h
      have h2 := Option.some_inj.mp h
      rw [← h2]
      rfl
    · rw [if_neg ht] at h
      cases h

theorem C3_quiescence_witness :
    (invalidateCursors 7 (⟨true, true, [("q", ⟨none, none⟩)], false⟩ : ElState)).tid =
      true ∧
    (invalidateCursors 7 (⟨true, true, [], false⟩ : ElState)).tid = true :=
  ⟨(C3_quiescence_amended 7 ⟨true, true, [("q", ⟨none, none⟩)], false⟩).1,
    (C3_quiescence_amended 7 ⟨true, true, [], true⟩).2
      (invalidateCursors 7 ⟨true, true, [], false⟩) rfl⟩

/-- C5 counterexample: the claim that the store is empty after the
transport "disconnect" transition is false — the disconnect handler
(`connected = false; _stop()`) never touches `this.cursors`, so an
existing entry survives the transition. -/
theorem C5_disconnect_cex :
    (disconnectHandler c5State).1.cursors = [("a", ⟨some (1, 2), some 10⟩)] ∧
    (disconnectHandler c5State).1.cursors ≠ [] := by
  refine ⟨rfl, ?_⟩
  intro h
  cases h

/-- C5 (amended): after the Active to Disconnected transition the session
is marked inactive and the pointer listener is detached (so no further
local emissions), but the Presence Store is left exactly as it was —
it is not cleared (that only happens in disconnectedCallback on widget
detach) — and the handler then throws a TypeError because `_stop`
dereferences the never-assigned `_cursor` field. -/
theorem C5_disconnect_amended (s : ElState) :
    (disconnectHandler s).1.connected = false ∧
    (disconnectHandler s).1.listener = false ∧
    (disconnectHandler s).1.cursors = s.cursors ∧
    (disconnectHandler s).2 = true :=
  ⟨rfl, rfl, rfl, rfl⟩

/-- C6 counterexample: the claim that messages arriving while the session
is not active leave the store unchanged is false — `_handleMessage`
never consults `connected`, so a move message received while inactive
creates a store entry. -/
theorem C6_inactive_cex :
    c6State.connected = false ∧
    (handleMessage [] zeroRect (0, 0) 0 c6State ⟨"move", "v", [], 0, 0⟩).1.cursors =
      [("v", ⟨none, none⟩)] := by
  refine ⟨rfl, ?_⟩
  rfl

/-- C6 (amended): inbound messages are processed regardless of session
activity — the store effect of `_handleMessage` is identical whatever
the value of the `connected` flag, so entries are created and refreshed
even before activation or after a disconnect. -/
theorem C6_inactive_amended (doc : List Elem) (rect : Elem → Int × Int)
    (scroll : Int × Int) (now : Nat) (s : ElState) (m : Msg) (b : Bool) :
    (handleMessage doc rect scroll now { s with connected := b } m).1.cursors =
      (handleMessage doc rect scroll now s m).1.cursors := by
  by_cases hev : (m.event == "move") = true
  · have hev2 : m.event = "move" := eq_of_beq hev
    rw [handleMessage_move _ _ _ _ _ _ hev2, handleMessage_move _ _ _ _ _ _ hev2]
    cases hget : storeGet s.cursors m.id with
    | some c =>
      simp only [hget]
      cases hk : Cursor.keepalive doc rect scroll now m.path m.x m.y
          ((some c).getD ⟨none, none⟩) with
      | error u => cases u; simp only [hk]
      | ok c2 => simp only [hk, invalidateCursors]
    | none =>
      simp only [hget]
      cases hk : Cursor.keepalive doc rect scroll now m.path m.x m.y
          ((storeGet (s.cursors ++ [(m.id, ⟨none, none⟩)]) m.id).getD
            ⟨none, none⟩) with
      | error u => cases u; simp only [hk]
      | ok c2 => simp only [hk, invalidateCursors]
  · have hev2 : (m.event == "move") = false := by
      cases h : m.event == "move"
      · rfl
      · exact absurd h hev
    rw [handleMessage_other _ _ _ _ _ _ hev2, handleMessage_other _ _ _ _ _ _ hev2]

/-- C10: a CursorEntry whose location never decoded has an unset deadline
(`Date.now() - undefined` is NaN, every comparison with the threshold is
false), so its expiry predicate is false at every time and every sweep
leaves the entry — and with it its visual marker — in the store, no
matter how long ago its last message arrived. -/
theorem C10_undead_entry (now : Nat) (s : ElState) (id : String) (c : Cursor)
    (hget : storeGet s.cursors id = some c) (hd : c.deadline = none) :
    Cursor.expired now c = false ∧
    storeGet (invalidateCursors now s).cursors id = some c := by
  have hexp : Cursor.expired now c = false := by
    unfold Cursor.expired
    rw [hd]
  refine ⟨hexp, ?_⟩
  simp only [invalidateCursors]
  exact storeGet_filter_of_true _ id _ (fun c => !Cursor.expired now c) hget
    (by simp only []; rw [hexp]; rfl)

theorem C10_undead_witness :
    Cursor.expired 999999 (⟨none, none⟩ : Cursor) = false ∧
    storeGet (invalidateCursors 999999
        (⟨true, true, [("g", ⟨none, none⟩)], false⟩ : ElState)).cursors "g" =
      some ⟨none, none⟩ :=
  C10_undead_entry 999999 ⟨true, true, [("g", ⟨none, none⟩)], false⟩ "g"
    ⟨none, none⟩ (by rfl) rfl

/-- C4: staleness.  An entry whose last refresh set the deadline to `d`
is removed by a sweep at any time `now` with `now - d > 2000` (marker
destroyed with the entry, store keys assumed unique as JS object keys
are), and survives the sweep at `d + 1999`. -/
theorem C4_staleness (now : Nat) (s : ElState) (id : String) (c : Cursor) (d : Nat)
    (hkeys : (s.cursors.map Prod.fst).Nodup)
    (hget : storeGet s.cursors id = some c)
    (hd : c.deadline = some d) :
    (now - d > 2000 → storeGet (invalidateCursors now s).cursors id = none) ∧
    storeGet (invalidateCursors (d + 1999) s).cursors id = some c := by
  constructor
  · intro hstale
    have hexp : Cursor.expired now c = true := by
      unfold Cursor.expired
      rw [hd]
      exact decide_eq_true hstale
    simp only [invalidateCursors]
    apply storeGet_filter_remove s.cursors id c (fun c => !Cursor.expired now c)
      hkeys hget
    rw [hexp]
    rfl
  · have hexp : Cursor.expired (d + 1999) c = false := by
      unfold Cursor.expired
      rw [hd]
      apply decide_eq_false
      omega
    simp only [invalidateCursors]
    exact storeGet_filter_of_true _ id _ (fun c => !Cursor.expired (d + 1999) c)
      hget (by simp only []; rw [hexp]; rfl)

theorem C4_staleness_witness :
    storeGet (invalidateCursors 3000 c4State).cursors "a" = none ∧
    storeGet (invalidateCursors 1999 c4State).cursors "a" = some ⟨none, some 0⟩ := by
  have h := C4_staleness 3000 c4State "a" ⟨none, some 0⟩ 0 (by decide) (by rfl) rfl
  exact ⟨h.1 (by decide), h.2⟩

/-- C9: throttle.  With a 100 ms interval configured (the constructor
wraps `_handleMove` in mini-throttle debounce) and pointer events every
10 ms for 500 ms, at most ~5 presence messages are emitted — in fact the
trailing debounce emits exactly one, 100 ms after the burst ends — and
the last (only) emitted message carries the final event of the burst. -/
theorem C9_throttle :
    (debounceRun 100 ((List.range 50).map (fun k => (10 * k, k))) none).length = 1 ∧
    (debounceRun 100 ((List.range 50).map (fun k => (10 * k, k))) none).length ≤ 5 ∧
    (debounceRun 100 ((List.range 50).map (fun k => (10 * k, k))) none).getLast? =
      some (590, 49) := by
  decide

theorem locLoop_acc_irrel (root : Option (List Elem)) (parts : List AddrPart)
    (a1 a2 : Option Elem) (h : parts ≠ []) :
    locLoop root parts a1 = locLoop root parts a2 := by
  cases parts with
  | nil => exact absurd rfl h
  | cons p rest =>
    cases root with
    | none => rfl
    | some roots => rfl

theorem locLoop_spec (parts : List AddrPart) (doc : List Elem) (e : Elem) :
    locLoop (some doc) parts none = Except.ok (some e) ↔
      specResolve doc parts = some e := by
  induction parts generalizing doc with
  | nil => simp [locLoop, specResolve]
  | cons part rest ih =>
    cases hq : querySelector doc part with
    | none =>
      rw [locLoop_cons_missed _ _ _ _ hq]
      simp [specResolve, hq]
    | some el =>
      rw [locLoop_cons_found _ _ _ _ _ hq]
      cases rest with
      | nil =>
        simp [locLoop, specResolve, hq]
      | cons r2 rs =>
        by_cases hs : el.hasShadow = true
        · rw [if_pos hs]
          rw [locLoop_acc_irrel _ _ (some el) none (by simp)]
          rw [ih el.shadowChildren]
          simp [specResolve, hq, hs]
        · rw [if_neg hs]
          have hs2 : el.hasShadow = false := by
            cases hb : el.hasShadow
            · rfl
            · exact absurd hb hs
          simp [locLoop, specResolve, hq, hs2]

/-- C7 (amended): decode never returns a partially resolved element — it
returns an element exactly when every part of the address resolves in
order, descending through the shadow roots the spec describes — and a
part that fails to resolve makes decode return not-found immediately.
Contrary to the claim, however, decode is not exception-free: when a
resolved non-final part's element has no shadow root, the next loop
iteration calls querySelector on null and throws (see the
counterexample). -/
theorem C7_decode_amended (doc : List Elem) (parts : List AddrPart) :
    (∀ e, pathLocator doc parts = Except.ok (some e) ↔
        specResolve doc parts = some e) ∧
    (∀ part rest, parts = part :: rest → querySelector doc part = none →
        pathLocator doc parts = Except.ok none) := by
  constructor
  · intro e
    unfold pathLocator
    exact locLoop_spec parts doc e
  · intro part rest hp hq
    subst hp
    unfold pathLocator
    exact locLoop_cons_missed _ _ _ _ hq

theorem enum_c7Doc : enumSibs [] [] c7Doc = [([], ([], c7El))] := by
  simp [c7Doc, c7El, enumSibs]

theorem qs_c7_hit : querySelector c7Doc [⟨"a", none⟩] = some c7El := by
  unfold querySelector
  rw [enum_c7Doc]
  rfl

theorem qs_c7_miss : querySelector c7Doc [⟨"b", none⟩] = none := by
  unfold querySelector
  rw [enum_c7Doc]
  rfl

/-- C7 counterexample: decoding can raise.  The address `a::shadow b`
resolves its first part to the element `a`, which has no shadow root, so
the loop continues with a null root and the next querySelector call
throws — refuting the claim that decode never raises an exception. -/
theorem C7_decode_cex :
    pathLocator c7Doc [[⟨"a", none⟩], [⟨"b", none⟩]] = Except.error () := by
  show locLoop (some c7Doc) [[⟨"a", none⟩], [⟨"b", none⟩]] none = Except.error ()
  rw [locLoop_cons_found _ _ _ _ _ qs_c7_hit]
  rfl

theorem C7_decode_witness :
    pathLocator c7Doc [[⟨"a", none⟩]] = Except.ok (some c7El) ∧
    pathLocator c7Doc [[⟨"b", none⟩]] = Except.ok none := by
  constructor
  · exact ((C7_decode_amended c7Doc [[⟨"a", none⟩]]).1 c7El).mpr
      (by simp [specResolve, qs_c7_hit])
  · exact (C7_decode_amended c7Doc [[⟨"b", none⟩]]).2 [⟨"b", none⟩] [] rfl qs_c7_miss

/-- C8 counterexample: the segment rule's "if and only if" is false.  A
div that is first of its tag but has a following div sibling is not the
only element of its tag among its siblings, yet `indexedSelector` emits
the bare tag name for it, because the walk only looks at preceding
siblings. -/
theorem C8_segment_cex :
    indexedSelector [] (Elem.mk "div" [] false []) = ⟨"div", none⟩ ∧
    onlyOfTag [] [Elem.mk "div" [] false []] (Elem.mk "div" [] false []) = false := by
  constructor
  · decide
  · decide

theorem countSameTag_append (t : String) (l1 l2 : List Elem) :
    countSameTag t (l1 ++ l2) = countSameTag t l1 + countSameTag t l2 := by
  simp [countSameTag, List.filter_append]

theorem countSameTag_congr (t1 t2 : String) (l : List Elem)
    (h : lowerStr t1 = lowerStr t2) : countSameTag t1 l = countSameTag t2 l := by
  simp [countSameTag, h]

theorem countSameTag_take_lt (sibs : List Elem) (j k : Nat) (ej e : Elem)
    (hj : sibs[j]? = some ej) (hjk : j < k)
    (htag : lowerStr ej.tag = lowerStr e.tag) :
    countSameTag e.tag (sibs.take j) + 1 ≤ countSameTag e.tag (sibs.take k) := by
  have hlen : j < sibs.length := by
    by_contra hge
    push_neg at hge
    rw [List.getElem?_eq_none hge] at hj
    cases hj
  have hjget : sibs[j] = ej := by
    have := List.getElem?_eq_getElem hlen
    rw [this] at hj
    exact Option.some_inj.mp hj
  have hdrop : sibs.drop j = ej :: sibs.drop (j + 1) := by
    rw [List.drop_eq_getElem_cons hlen, hjget]
  have htake : sibs.take k = sibs.take j ++ (sibs.drop j).take (k - j) := by
    conv_lhs => rw [show k = j + (k - j) from by omega]
    rw [List.take_add]
  rw [htake, countSameTag_append, hdrop]
  cases hkj2 : k - j with
  | zero => omega
  | succ n =>
    simp only [List.take_succ_cons]
    have hcons : countSameTag e.tag (ej :: ((sibs.drop (j + 1)).take n)) =
        countSameTag e.tag ((sibs.drop (j + 1)).take n) + 1 := by
      simp [countSameTag, List.filter_cons, htag]
    omega

/-- C8 (amended): the emitted segment is the bare tag name iff the
element has no preceding element sibling of the same tag
(case-insensitively) — an element that is first of its tag still gets
the bare name even when same-tag siblings follow it; otherwise the
segment carries the 1-based ordinal among same-tag element siblings
(1 + the number of preceding ones).  Distinct same-tag siblings always
receive distinct segments, the ordinal being strictly increasing in
sibling order. -/
theorem C8_segment_amended (sibs : List Elem) (k : Nat) (e : Elem)
    (_hk : sibs[k]? = some e) :
    (indexedSelector (sibs.take k) e = ⟨e.tag, none⟩ ↔
      countSameTag e.tag (sibs.take k) = 0) ∧
    (countSameTag e.tag (sibs.take k) ≠ 0 →
      indexedSelector (sibs.take k) e =
        ⟨e.tag, some (countSameTag e.tag (sibs.take k) + 1)⟩) ∧
    (∀ j ej, j < k → sibs[j]? = some ej → lowerStr ej.tag = lowerStr e.tag →
      indexedSelector (sibs.take j) ej ≠ indexedSelector (sibs.take k) e) := by
  refine ⟨?_, ?_, ?_⟩
  · unfold indexedSelector
    by_cases hc : countSameTag e.tag (sibs.take k) = 0
    · simp [hc]
    · have hc2 : (countSameTag e.tag (sibs.take k) == 0) = false := by
        simpa using hc
      simp [hc2, hc]
  · intro hc
    unfold indexedSelector
    have hc2 : (countSameTag e.tag (sibs.take k) == 0) = false := by
      simpa using hc
    simp [hc2]
  · intro j ej hjk hj htag hEq
    have hcnt := countSameTag_take_lt sibs j k ej e hj hjk htag
    have hcongr : countSameTag ej.tag (sibs.take j) =
        countSameTag e.tag (sibs.take j) := countSameTag_congr _ _ _ htag
    have hkpos : countSameTag e.tag (sibs.take k) ≠ 0 := by omega
    have hk2 : (countSameTag e.tag (sibs.take k) == 0) = false := by
      simpa using hkpos
    have hsegk : indexedSelector (sibs.take k) e =
        ⟨e.tag, some (countSameTag e.tag (sibs.take k) + 1)⟩ := by
      unfold indexedSelector
      simp [hk2]
    by_cases hcj : countSameTag ej.tag (sibs.take j) = 0
    · have hcj2 : (countSameTag ej.tag (sibs.take j) == 0) = true := by
        simpa using hcj
      have hsegj : indexedSelector (sibs.take j) ej = ⟨ej.tag, none⟩ := by
        unfold indexedSelector
        simp [hcj2]
      rw [hsegj, hsegk] at hEq
      simp at hEq
    · have hcj2 : (countSameTag ej.tag (sibs.take j) == 0) = false := by
        simpa using hcj
      have hsegj : indexedSelector (sibs.take j) ej =
          ⟨ej.tag, some (countSameTag ej.tag (sibs.take j) + 1)⟩ := by
        unfold indexedSelector
        simp [hcj2]
      rw [hsegj, hsegk] at hEq
      simp only [Segment.mk.injEq, Option.some.injEq] at hEq
      obtain ⟨h1, h2⟩ := hEq
      omega

theorem C8_segment_witness :
    indexedSelector
        ([Elem.mk "div" [] false [], Elem.mk "div" [] false []].take 1)
        (Elem.mk "div" [] false []) = ⟨"div", some 2⟩ ∧
    indexedSelector
        ([Elem.mk "div" [] false [], Elem.mk "div" [] false []].take 0)
        (Elem.mk "div" [] false []) ≠
      indexedSelector
        ([Elem.mk "div" [] false [], Elem.mk "div" [] false []].take 1)
        (Elem.mk "div" [] false []) := by
  have h := C8_segment_amended
    [Elem.mk "div" [] false [], Elem.mk "div" [] false []] 1
    (Elem.mk "div" [] false []) rfl
  exact ⟨h.2.1 (by decide), h.2.2 0 (Elem.mk "div" [] false []) (by decide) rfl rfl⟩
